import Mathlib

/-!
Verification development for the `define` word-definition daemon
(repository `rayan6ms/define`, single Go source file `define.go`).

Go strings are modelled as lists of characters (`GoStr`); on the ASCII
text manipulated by the program, character counts and Go byte lengths
coincide, so `List.length`, `List.take` and friends model Go's `len`
and byte slicing.  Times and durations are modelled as natural numbers
of nanoseconds, matching Go's `time.Duration`; `time.Since(ts)` at
current instant `now` is `now - ts` (truncated subtraction).  The two
remote HTTP providers and the offline `dict` process are modelled as
oracles `GoStr → Option GoStr`: `none` is any failure (timeout,
non-2xx, unparseable payload, empty output) and `some o` is a reply
with text `o`; the Go success test `err == nil && o != ""` becomes
`∃ o, f c = some o ∧ o ≠ []`.  Each embedded function carries a
comment naming the Go function it is translated from.
-/

/-- A Go string, as its sequence of characters. -/
abbrev GoStr := List Char

/-- Convert a Lean string literal to a `GoStr`. -/
def str (s : String) : GoStr := s.data

/-- The ASCII whitespace characters trimmed by `strings.TrimSpace`
(`unicode.IsSpace` restricted to ASCII). -/
def isSpaceChar (c : Char) : Bool :=
  c = ' ' || c = '\t' || c = '\n' || c = '\r' || c = Char.ofNat 11 || c = Char.ofNat 12

/-- Leading-whitespace trim (left half of `strings.TrimSpace`). -/
def trimLeft (s : GoStr) : GoStr := s.dropWhile isSpaceChar

/-- Trailing-whitespace trim (right half of `strings.TrimSpace`). -/
def trimRight (s : GoStr) : GoStr := (s.reverse.dropWhile isSpaceChar).reverse

/-- `strings.TrimSpace`. -/
def trimSpace (s : GoStr) : GoStr := trimRight (trimLeft s)

/-- ASCII lower-casing of one character (`strings.ToLower`, ASCII range). -/
def lowerChar (c : Char) : Char :=
  if 'A' ≤ c ∧ c ≤ 'Z' then Char.ofNat (c.toNat + 32) else c

/-- ASCII upper-casing of one character (`strings.ToUpper`, ASCII range). -/
def upperChar (c : Char) : Char :=
  if 'a' ≤ c ∧ c ≤ 'z' then Char.ofNat (c.toNat - 32) else c

/-- `strings.ToLower`. -/
def goToLower (s : GoStr) : GoStr := s.map lowerChar

/-- `strings.HasSuffix s suf`. -/
def goHasSuffix (s suf : GoStr) : Bool := suf.isSuffixOf s

/-- `strings.TrimSuffix s suf`: drop `suf` from the end when present. -/
def goTrimSuffix (s suf : GoStr) : GoStr :=
  if suf.isSuffixOf s then s.take (s.length - suf.length) else s

/-- `cap1` from define.go: upper-case the first character. -/
def cap1 : GoStr → GoStr
  | [] => []
  | c :: rest => upperChar c :: rest

/-- `strings.Contains s sub`. -/
def containsSub : GoStr → GoStr → Bool
  | s, sub =>
    if sub.isPrefixOf s then true
    else
      match s with
      | [] => false
      | _ :: rest => containsSub rest sub

/- Constants from define.go (durations in nanoseconds). -/

/-- `memCacheMax = 2500`. -/
def memCacheMax : Nat := 2500

/-- `cacheTTL = 30 * 24 * time.Hour` in nanoseconds. -/
def cacheTTL : Nat := 30 * 24 * 3600 * 1000000000

/-- `bodyMaxChars = 1400`. -/
def bodyMaxChars : Nat := 1400

/-- `offlineRefreshAfter = 12 * time.Hour` in nanoseconds. -/
def offlineRefreshAfter : Nat := 12 * 3600 * 1000000000

/-- The dedupe pass at the end of `lemmaCandidates`: keep the first
occurrence of each candidate (`seen` map in the Go loop). -/
def dedupeAux (seen : List GoStr) : List GoStr → List GoStr
  | [] => []
  | c :: rest => if c ∈ seen then dedupeAux seen rest else c :: dedupeAux (c :: seen) rest

/-- `lemmaCandidates` from define.go: the lowercased word, then the
applicable suffix-stripped forms, deduplicated in order. -/
def lemmaCandidates (w0 : GoStr) : List GoStr :=
  let w := goToLower w0
  let cands := [w]
  let cands :=
    if goHasSuffix w (str "ies") = true ∧ 4 < w.length then
      cands ++ [w.take (w.length - 3) ++ str "y"]
    else cands
  let cands :=
    if goHasSuffix w (str "es") = true ∧ 4 < w.length then
      cands ++ [w.take (w.length - 2)]
    else cands
  let cands :=
    if goHasSuffix w (str "s") = true ∧ 3 < w.length ∧ ¬ goHasSuffix w (str "ss") = true then
      cands ++ [goTrimSuffix w (str "s")]
    else cands
  dedupeAux [] cands

/-- `clampBody` from define.go: trim, and if over `bodyMaxChars`
replace the tail with a truncation marker. -/
def clampBody (s0 : GoStr) : GoStr :=
  let s := trimSpace s0
  if s.length ≤ bodyMaxChars then s
  else trimSpace (s.take (bodyMaxChars - 80)) ++ str "\n\n… (click to open full)"

/-- `sourceEmoji` from define.go. -/
def sourceEmoji (src : GoStr) : GoStr :=
  if src = str "online" then str "☁️"
  else if src = str "wiktionary" then str "🧾"
  else if src = str "offline" then str "🗄️"
  else str "❓"

/-- One entry of the in-memory LRU cache (`cacheItem` in define.go). -/
structure cacheItem where
  key : GoStr
  title : GoStr
  body : GoStr
  full : GoStr
  ts : Nat
  src : GoStr
deriving DecidableEq

/-- The in-memory LRU cache (`lruCache` in define.go).  The doubly
linked `container/list` plus `items` index is modelled by the list
`ll` of items in recency order, most recent first; the `items` map is
the derived key index. -/
structure lruCache where
  ll : List cacheItem
  max : Nat
  ttl : Nat
deriving DecidableEq

/-- `newLRU`. -/
def newLRU (max ttl : Nat) : lruCache := ⟨[], max, ttl⟩

/-- The `items` map lookup: the unique item of `ll` with the given key. -/
def memFind (c : lruCache) (key : GoStr) : Option cacheItem :=
  c.ll.find? (fun it => it.key == key)

/-- `lruCache.get`: on a fresh hit move the item to the front and
return it; a stale hit is removed and reported as a miss.  Returns the
looked-up item together with the updated cache. -/
def lruCache.get (c : lruCache) (now : Nat) (key : GoStr) : Option cacheItem × lruCache :=
  match c.ll.find? (fun it => it.key == key) with
  | none => (none, c)
  | some it =>
    if c.ttl < now - it.ts then
      (none, { c with ll := c.ll.eraseP (fun jt => jt.key == key) })
    else
      (some it, { c with ll := it :: c.ll.eraseP (fun jt => jt.key == key) })

/-- The `for c.ll.Len() > c.max` eviction loop of `lruCache.set`,
dropping the back (least recently used) element each iteration.  The
fuel argument (instantiated with the list length) only makes the
recursion structural; the loop always stops by emptying the list. -/
def evictFuel : Nat → List cacheItem → Nat → List cacheItem
  | 0, l, _ => l
  | fuel + 1, l, m => if m < l.length then evictFuel fuel l.dropLast m else l

/-- The eviction loop of `lruCache.set`. -/
def evictLoop (l : List cacheItem) (m : Nat) : List cacheItem :=
  evictFuel l.length l m

/-- `lruCache.set`: update an existing entry in place and move it to
the front, or push a fresh entry and evict from the back past
capacity. -/
def lruCache.set (c : lruCache) (now : Nat) (key title body full src : GoStr) : lruCache :=
  match c.ll.find? (fun it => it.key == key) with
  | some _ =>
    { c with ll := ⟨key, title, body, full, now, src⟩ :: c.ll.eraseP (fun it => it.key == key) }
  | none =>
    { c with ll := evictLoop (⟨key, title, body, full, now, src⟩ :: c.ll) c.max }

/-- One entry of the persisted cache file (`diskEntry` in define.go). -/
structure diskEntry where
  title : GoStr
  body : GoStr
  full : GoStr
  ts : Nat
  source : GoStr
deriving DecidableEq

/-- The persisted `map[string]diskEntry`, as an association list. -/
abbrev DiskMap := List (GoStr × diskEntry)

/-- Map lookup `disk[key]`. -/
def lookupD (m : DiskMap) (k : GoStr) : Option diskEntry :=
  (m.find? (fun p => p.1 == k)).map (fun p => p.2)

/-- Map assignment `disk[key] = v`. -/
def insertD (m : DiskMap) (k : GoStr) (v : diskEntry) : DiskMap :=
  (k, v) :: m.filter (fun p => ¬ p.1 == k)

/-- The persisted-tier freshness check inlined in `resolveDefinition`
(lines 610-616 of define.go): an `offline` entry older than
`offlineRefreshAfter` is skipped; otherwise any entry within
`cacheTTL` is returned. -/
def diskLookupFresh (m : DiskMap) (key : GoStr) (now : Nat) : Option diskEntry :=
  match lookupD m key with
  | none => none
  | some de =>
    if de.source = str "offline" ∧ offlineRefreshAfter < now - de.ts then none
    else if now - de.ts ≤ cacheTTL then some de
    else none

/-- The slice of the file system touched by the persisted cache: the
parsed contents of `cache.json` and of its `.tmp` sibling (`none`
means absent or unreadable). -/
structure DiskFS where
  main : Option DiskMap
  tmp : Option DiskMap
deriving DecidableEq

/-- `saveDiskCacheAtomic`: write the snapshot to the temp path, then
rename it into place.  `writeOk` and `renameOk` inject the possible
failures of `os.WriteFile` and `os.Rename`; either failure returns
with the main file untouched. -/
def saveDiskCacheAtomic (fs : DiskFS) (m : DiskMap) (writeOk renameOk : Bool) : DiskFS :=
  if writeOk = false then fs
  else
    let fs1 : DiskFS := { fs with tmp := some m }
    if renameOk = false then fs1
    else { main := some m, tmp := none }

/-- One iteration of the 2-second flush goroutine in `runDaemon`
(lines 793-799): if dirty, save and clear the dirty flag. -/
def flushTick (fs : DiskFS) (disk : DiskMap) (dirty : Bool) (writeOk renameOk : Bool) :
    DiskFS × Bool :=
  if dirty then (saveDiskCacheAtomic fs disk writeOk renameOk, false)
  else (fs, dirty)

/-- The three lookup providers, as oracles.  `none` is any failure
(timeout, transport error, non-2xx, unparseable or empty payload). -/
structure Providers where
  primary : GoStr → Option GoStr
  wiktionary : GoStr → Option GoStr
  offline : GoStr → Option GoStr

/-- A record of one provider invocation, for stating which lookups a
resolution performs. -/
inductive ProvCall where
  | primary (w : GoStr)
  | wiktionary (w : GoStr)
  | offline (w : GoStr)
deriving DecidableEq

/-- One `for _, cand := range lemmaCandidates(word)` loop of
`resolveDefinition`: try the provider on each candidate in order,
stopping at the first reply with non-empty text (`err == nil && o != ""`).
Returns the winning `(text, candidate)` pair, if any, and the trace of
invocations made. -/
def tryChain (f : GoStr → Option GoStr) (mk : GoStr → ProvCall) :
    List GoStr → Option (GoStr × GoStr) × List ProvCall
  | [] => (none, [])
  | c :: rest =>
    match f c with
    | none =>
      let (r, tr) := tryChain f mk rest
      (r, mk c :: tr)
    | some o =>
      if o = [] then
        let (r, tr) := tryChain f mk rest
        (r, mk c :: tr)
      else (some (o, c), [mk c])

/-- The first candidate on which the provider succeeds with non-empty
text, together with that text. -/
def firstSucc (f : GoStr → Option GoStr) : List GoStr → Option (GoStr × GoStr)
  | [] => none
  | c :: rest =>
    match f c with
    | none => firstSucc f rest
    | some o => if o = [] then firstSucc f rest else some (o, c)

/-- The candidates actually tried by one provider loop: everything up
to and including the first success, or the whole list. -/
def takeUntilSucc (f : GoStr → Option GoStr) : List GoStr → List GoStr
  | [] => []
  | c :: rest =>
    match f c with
    | none => c :: takeUntilSucc f rest
    | some o => if o = [] then c :: takeUntilSucc f rest else [c]

/-- `f` has no non-empty-text success on candidate `c`. -/
def noSucc (f : GoStr → Option GoStr) (c : GoStr) : Prop :=
  ∀ o, f c = some o → o = []

/-- The command-line flags (`config` in define.go). -/
structure config where
  debug : Bool
  daemon : Bool
  forceOnline : Bool
  noOffline : Bool
  fullView : Bool

/-- The provider-fallback portion of `resolveDefinition` (lines
618-647): the primary loop, then the wiktionary loop if nothing was
found, then (unless `--no-offline`) the offline loop, then the
"No definition found." default.  Yields `(out, used, source)` and the
concatenated invocation trace. -/
def chainAll (cfg : config) (prov : Providers) (word : GoStr) (cands : List GoStr) :
    (GoStr × GoStr × GoStr) × List ProvCall :=
  match tryChain prov.primary ProvCall.primary cands with
  | (some (o, c), t1) => ((o, c, str "online"), t1)
  | (none, t1) =>
    match tryChain prov.wiktionary ProvCall.wiktionary cands with
    | (some (o, c), t2) => ((o, c, str "wiktionary"), t1 ++ t2)
    | (none, t2) =>
      if cfg.noOffline = true then ((str "No definition found.", word, str "none"), t1 ++ t2)
      else
        match tryChain prov.offline ProvCall.offline cands with
        | (some (o, c), t3) => ((o, c, str "offline"), t1 ++ t2 ++ t3)
        | (none, t3) => ((str "No definition found.", word, str "none"), t1 ++ t2 ++ t3)

/-- The mutable state threaded through `resolveDefinition`: the memory
cache, the persisted map with its dirty flag, and the contents of the
last-resolution artifact `last.txt` (`none` if never written). -/
structure ResolveState where
  mem : lruCache
  disk : DiskMap
  diskDirty : Bool
  lastFile : Option GoStr
deriving DecidableEq

/-- The `(title, body, full, source)` return tuple of
`resolveDefinition`.  The extra `used` field is instrumentation
exposing the function's local variable `used` (the lemma the chain
succeeded on); it is `[]` on the two cache-hit paths, which return
before `used` exists. -/
structure RRes where
  title : GoStr
  body : GoStr
  full : GoStr
  source : GoStr
  used : GoStr
deriving DecidableEq

/-- `resolveDefinition` from define.go: memory tier, then persisted
tier, then the provider chain; a chain run shapes the result, writes
`last.txt`, and write-through populates both tiers, marking the
persisted tier dirty.  Returns the result, the updated state, and the
trace of provider invocations. -/
def resolveDefinition (cfg : config) (prov : Providers) (now : Nat) (st : ResolveState)
    (word : GoStr) : RRes × ResolveState × List ProvCall :=
  let key := goToLower word
  match st.mem.get now key with
  | (some it, mem1) => (⟨it.title, it.body, it.full, it.src, []⟩, { st with mem := mem1 }, [])
  | (none, mem1) =>
    match diskLookupFresh st.disk key now with
    | some de =>
      (⟨de.title, de.body, de.full, de.source, []⟩,
       { st with mem := mem1.set now key de.title de.body de.full de.source }, [])
    | none =>
      match chainAll cfg prov word (lemmaCandidates word) with
      | ((out, used, source), calls) =>
        let showWord :=
          if used ≠ ([] : GoStr) ∧ goToLower word ≠ used then
            cap1 word ++ str " → " ++ cap1 used
          else cap1 word
        let full := trimSpace out
        let body := str "<b><i>" ++ showWord ++ str "</i></b>\n" ++ clampBody full
        let title := str "📘 " ++ cap1 word ++ str " " ++ sourceEmoji source
        (⟨title, body, full, source, used⟩,
         { mem := mem1.set now key title body full source,
           disk := insertD st.disk key ⟨title, body, full, now, source⟩,
           diskDirty := true,
           lastFile := some full },
         calls)

/- Concrete fixtures used by witnesses and counterexamples. -/

/-- Default flags: no options set. -/
def cfg0 : config := ⟨false, false, false, false, false⟩

/-- Daemon start state: fresh LRU, empty persisted map, clean, no
last-resolution artifact. -/
def st0 : ResolveState := ⟨newLRU memCacheMax cacheTTL, [], false, none⟩

/-- Provider stub: every provider fails on every word. -/
def provFailAll : Providers := ⟨fun _ => none, fun _ => none, fun _ => none⟩

/-- Provider stub: the primary provider defines "legend" only;
everything else fails. -/
def provLegend : Providers :=
  ⟨fun c => if c = str "legend" then some (str "a story handed down") else none,
   fun _ => none, fun _ => none⟩

/-- A persisted entry resolved from the primary provider at time 0. -/
def entOnline : diskEntry := ⟨str "tO", str "bO", str "fO", 0, str "online"⟩

/-- A persisted entry resolved from the offline provider at time 0. -/
def entOffline : diskEntry := ⟨str "tF", str "bF", str "fF", 0, str "offline"⟩

/-- State whose persisted tier maps "cat" to an online-sourced entry. -/
def stDiskOnline : ResolveState :=
  ⟨newLRU memCacheMax cacheTTL, [(str "cat", entOnline)], false, none⟩

/-- State whose persisted tier maps "cat" to an offline-sourced entry. -/
def stDiskOffline : ResolveState :=
  ⟨newLRU memCacheMax cacheTTL, [(str "cat", entOffline)], false, none⟩

/-- A memory-cache item for key "aa", stored at time 0. -/
def itemA : cacheItem := ⟨str "aa", str "tA", str "bA", str "fA", 0, str "online"⟩

/-- A memory-cache item for key "bb", stored at time 0. -/
def itemB : cacheItem := ⟨str "bb", str "tB", str "bB", str "fB", 0, str "online"⟩

/-- A memory cache at capacity 2 holding `itemA` (most recent) and
`itemB` (least recent). -/
def cacheAB : lruCache := ⟨[itemA, itemB], 2, cacheTTL⟩

/-- State whose memory tier holds `itemA` under key "aa". -/
def stMemHit : ResolveState := ⟨⟨[itemA], memCacheMax, cacheTTL⟩, [], false, none⟩

/-- Claim C1 as a proposition: after a first resolution of `word`, a
second resolution for the same lowercased key returns the identical
`(title, body, full, source)` tuple and performs no provider
invocation. -/
def idemPropC1 (cfg1 cfg2 : config) (prov1 prov2 : Providers) (st : ResolveState)
    (word word2 : GoStr) (t1 t2 : Nat) : Prop :=
  (resolveDefinition cfg2 prov2 t2 (resolveDefinition cfg1 prov1 t1 st word).2.1 word2).1.title =
    (resolveDefinition cfg1 prov1 t1 st word).1.title ∧
  (resolveDefinition cfg2 prov2 t2 (resolveDefinition cfg1 prov1 t1 st word).2.1 word2).1.body =
    (resolveDefinition cfg1 prov1 t1 st word).1.body ∧
  (resolveDefinition cfg2 prov2 t2 (resolveDefinition cfg1 prov1 t1 st word).2.1 word2).1.full =
    (resolveDefinition cfg1 prov1 t1 st word).1.full ∧
  (resolveDefinition cfg2 prov2 t2 (resolveDefinition cfg1 prov1 t1 st word).2.1 word2).1.source =
    (resolveDefinition cfg1 prov1 t1 st word).1.source ∧
  (resolveDefinition cfg2 prov2 t2 (resolveDefinition cfg1 prov1 t1 st word).2.1 word2).2.2 = []

/-- Claim C2 as a proposition: on a full cache miss, the invocation
trace is primary calls, then wiktionary calls, then offline calls
(never interleaved), each block a prefix of the candidate list; a
later block is nonempty only if the earlier provider was tried on
every candidate; and the first success determines text, used lemma
and source kind. -/
def providerOrderSpec (cfg : config) (prov : Providers) (now : Nat) (st : ResolveState)
    (word : GoStr) : Prop :=
  (∃ t1 t2 t3 : List GoStr,
    (resolveDefinition cfg prov now st word).2.2 =
      t1.map ProvCall.primary ++ t2.map ProvCall.wiktionary ++ t3.map ProvCall.offline ∧
    t1 <+: lemmaCandidates word ∧ t2 <+: lemmaCandidates word ∧ t3 <+: lemmaCandidates word ∧
    ((t2 ≠ [] ∨ t3 ≠ []) → t1 = lemmaCandidates word) ∧
    (t3 ≠ [] → t2 = lemmaCandidates word)) ∧
  (∀ o c, firstSucc prov.primary (lemmaCandidates word) = some (o, c) →
    (resolveDefinition cfg prov now st word).1.full = trimSpace o ∧
    (resolveDefinition cfg prov now st word).1.used = c ∧
    (resolveDefinition cfg prov now st word).1.source = str "online" ∧
    (resolveDefinition cfg prov now st word).2.2 =
      (takeUntilSucc prov.primary (lemmaCandidates word)).map ProvCall.primary) ∧
  (firstSucc prov.primary (lemmaCandidates word) = none →
    ∀ o c, firstSucc prov.wiktionary (lemmaCandidates word) = some (o, c) →
    (resolveDefinition cfg prov now st word).1.full = trimSpace o ∧
    (resolveDefinition cfg prov now st word).1.used = c ∧
    (resolveDefinition cfg prov now st word).1.source = str "wiktionary" ∧
    (resolveDefinition cfg prov now st word).2.2 =
      (lemmaCandidates word).map ProvCall.primary ++
        (takeUntilSucc prov.wiktionary (lemmaCandidates word)).map ProvCall.wiktionary) ∧
  (cfg.noOffline = false →
    firstSucc prov.primary (lemmaCandidates word) = none →
    firstSucc prov.wiktionary (lemmaCandidates word) = none →
    ∀ o c, firstSucc prov.offline (lemmaCandidates word) = some (o, c) →
    (resolveDefinition cfg prov now st word).1.full = trimSpace o ∧
    (resolveDefinition cfg prov now st word).1.used = c ∧
    (resolveDefinition cfg prov now st word).1.source = str "offline" ∧
    (resolveDefinition cfg prov now st word).2.2 =
      (lemmaCandidates word).map ProvCall.primary ++
        (lemmaCandidates word).map ProvCall.wiktionary ++
        (takeUntilSucc prov.offline (lemmaCandidates word)).map ProvCall.offline)

/-- Amended claim C6 as a proposition: with every provider failing on
every candidate, the result is the terminal "not found" outcome with
source `none`, its `full` text is the fixed placeholder (the displayed
`body` carries it as its final segment after the markup header), it is
written to both cache tiers marking the persisted tier dirty, and a
second resolution within the TTL window performs no provider
invocation. -/
def noResultProp (cfg : config) (prov : Providers) (t1 t2 : Nat) (st : ResolveState)
    (word : GoStr) : Prop :=
  (resolveDefinition cfg prov t1 st word).1.source = str "none" ∧
  (resolveDefinition cfg prov t1 st word).1.full = str "No definition found." ∧
  str "No definition found." <:+ (resolveDefinition cfg prov t1 st word).1.body ∧
  lookupD (resolveDefinition cfg prov t1 st word).2.1.disk (goToLower word) =
    some ⟨(resolveDefinition cfg prov t1 st word).1.title,
          (resolveDefinition cfg prov t1 st word).1.body,
          (resolveDefinition cfg prov t1 st word).1.full, t1,
          (resolveDefinition cfg prov t1 st word).1.source⟩ ∧
  (resolveDefinition cfg prov t1 st word).2.1.diskDirty = true ∧
  memFind (resolveDefinition cfg prov t1 st word).2.1.mem (goToLower word) =
    some ⟨goToLower word, (resolveDefinition cfg prov t1 st word).1.title,
          (resolveDefinition cfg prov t1 st word).1.body,
          (resolveDefinition cfg prov t1 st word).1.full, t1,
          (resolveDefinition cfg prov t1 st word).1.source⟩ ∧
  (∀ cfg2 prov2,
    (resolveDefinition cfg2 prov2 t2 (resolveDefinition cfg prov t1 st word).2.1 word).2.2 = [])

/-- A memory-cache item for key "cat" resolved offline at time 0. -/
def itemOffC : cacheItem := ⟨str "cat", str "tC", str "bC", str "fC", 0, str "offline"⟩

/-- State whose memory tier holds the offline-sourced `itemOffC`. -/
def stMemOffline : ResolveState := ⟨⟨[itemOffC], memCacheMax, cacheTTL⟩, [], false, none⟩

/-! ### Lemmas about the dedupe pass and `lemmaCandidates` -/

theorem dedupeAux_not_mem_seen (l : List GoStr) :
    ∀ seen x, x ∈ dedupeAux seen l → x ∉ seen := by
  induction l with
  | nil => intro seen x hx; simp [dedupeAux] at hx
  | cons c rest ih =>
    intro seen x hx
    by_cases hc : c ∈ seen
    · simp only [dedupeAux, if_pos hc] at hx
      exact ih seen x hx
    · simp only [dedupeAux, if_neg hc, List.mem_cons] at hx
      rcases hx with rfl | hx
      · exact hc
      · intro hxseen
        exact ih (c :: seen) x hx (List.mem_cons_of_mem _ hxseen)

theorem dedupeAux_nodup (l : List GoStr) : ∀ seen, (dedupeAux seen l).Nodup := by
  induction l with
  | nil => intro seen; simp [dedupeAux]
  | cons c rest ih =>
    intro seen
    by_cases hc : c ∈ seen
    · simp only [dedupeAux, if_pos hc]; exact ih seen
    · simp only [dedupeAux, if_neg hc]
      refine List.nodup_cons.mpr ⟨?_, ih (c :: seen)⟩
      intro hmem
      exact dedupeAux_not_mem_seen rest (c :: seen) c hmem (List.mem_cons_self _ _)

theorem dedupeAux_cons_nil (c : GoStr) (l : List GoStr) :
    dedupeAux [] (c :: l) = c :: dedupeAux [c] l := by
  simp [dedupeAux]

theorem lemmaCandidates_shape (w : GoStr) :
    ∃ rest, lemmaCandidates w = goToLower w :: rest := by
  simp only [lemmaCandidates]
  split <;> split <;> split <;> exact ⟨_, dedupeAux_cons_nil _ _⟩

/-! ### Lemmas about the provider loops -/

theorem tryChain_eq (f : GoStr → Option GoStr) (mk : GoStr → ProvCall) (l : List GoStr) :
    tryChain f mk l = (firstSucc f l, (takeUntilSucc f l).map mk) := by
  induction l with
  | nil => rfl
  | cons c rest ih =>
    cases hfc : f c with
    | none => simp [tryChain, firstSucc, takeUntilSucc, hfc, ih]
    | some o =>
      by_cases ho : o = ([] : GoStr)
      · simp [tryChain, firstSucc, takeUntilSucc, hfc, ho, ih]
      · simp [tryChain, firstSucc, takeUntilSucc, hfc, ho]

theorem takeUntilSucc_isP (f : GoStr → Option GoStr) (l : List GoStr) :
    takeUntilSucc f l <+: l := by
  induction l with
  | nil => exact List.prefix_refl _
  | cons c rest ih =>
    cases hfc : f c with
    | none =>
      simp only [takeUntilSucc, hfc]
      exact List.cons_prefix_cons.mpr ⟨rfl, ih⟩
    | some o =>
      by_cases ho : o = ([] : GoStr)
      · simp only [takeUntilSucc, hfc, if_pos ho]
        exact List.cons_prefix_cons.mpr ⟨rfl, ih⟩
      · simp only [takeUntilSucc, hfc, if_neg ho]
        exact List.cons_prefix_cons.mpr ⟨rfl, List.nil_prefix⟩

theorem takeUntilSucc_of_none (f : GoStr → Option GoStr) (l : List GoStr)
    (h : firstSucc f l = none) : takeUntilSucc f l = l := by
  induction l with
  | nil => rfl
  | cons c rest ih =>
    cases hfc : f c with
    | none =>
      simp only [firstSucc, hfc] at h
      simp only [takeUntilSucc, hfc]
      simp [ih h]
    | some o =>
      by_cases ho : o = ([] : GoStr)
      · simp only [firstSucc, hfc, if_pos ho] at h
        simp only [takeUntilSucc, hfc, if_pos ho]
        simp [ih h]
      · simp only [firstSucc, hfc, if_neg ho] at h
        cases h

theorem firstSucc_eq_none_iff (f : GoStr → Option GoStr) (l : List GoStr) :
    firstSucc f l = none ↔ ∀ c ∈ l, noSucc f c := by
  induction l with
  | nil => simp [firstSucc]
  | cons c rest ih =>
    cases hfc : f c with
    | none =>
      simp only [firstSucc, hfc, List.mem_cons]
      constructor
      · intro h x hx
        rcases hx with rfl | hx
        · intro o ho; rw [hfc] at ho; cases ho
        · exact (ih.mp h) x hx
      · intro h; exact ih.mpr (fun x hx => h x (Or.inr hx))
    | some o =>
      by_cases ho : o = ([] : GoStr)
      · simp only [firstSucc, hfc, if_pos ho, List.mem_cons]
        constructor
        · intro h x hx
          rcases hx with rfl | hx
          · intro o' ho'; rw [hfc] at ho'; injection ho' with ho''; rw [← ho'']; exact ho
          · exact (ih.mp h) x hx
        · intro h; exact ih.mpr (fun x hx => h x (Or.inr hx))
      · simp only [firstSucc, hfc, if_neg ho, List.mem_cons]
        constructor
        · intro h; cases h
        · intro h
          exact absurd (h c (Or.inl rfl) o hfc) ho

theorem firstSucc_some_spec (f : GoStr → Option GoStr) (l : List GoStr) (o c : GoStr)
    (h : firstSucc f l = some (o, c)) : f c = some o ∧ o ≠ ([] : GoStr) ∧ c ∈ l := by
  induction l with
  | nil => cases h
  | cons d rest ih =>
    cases hfd : f d with
    | none =>
      simp only [firstSucc, hfd] at h
      obtain ⟨h1, h2, h3⟩ := ih h
      exact ⟨h1, h2, List.mem_cons_of_mem _ h3⟩
    | some o' =>
      by_cases ho' : o' = ([] : GoStr)
      · simp only [firstSucc, hfd, if_pos ho'] at h
        obtain ⟨h1, h2, h3⟩ := ih h
        exact ⟨h1, h2, List.mem_cons_of_mem _ h3⟩
      · simp only [firstSucc, hfd, if_neg ho'] at h
        injection h with h
        injection h with h1 h2
        subst h1; subst h2
        exact ⟨hfd, ho', List.mem_cons_self _ _⟩

theorem takeUntilSucc_cons (f : GoStr → Option GoStr) (c : GoStr) (rest : List GoStr) :
    ∃ r, takeUntilSucc f (c :: rest) = c :: r := by
  cases hfc : f c with
  | none => exact ⟨takeUntilSucc f rest, by simp only [takeUntilSucc, hfc]⟩
  | some o =>
    by_cases ho : o = ([] : GoStr)
    · exact ⟨takeUntilSucc f rest, by simp only [takeUntilSucc, hfc, if_pos ho]⟩
    · exact ⟨[], by simp only [takeUntilSucc, hfc, if_neg ho]⟩

/-- The whole fallback chain, characterized stage by stage by the
first success of each provider over the candidate list. -/
theorem chainAll_eq (cfg : config) (prov : Providers) (word : GoStr) (cands : List GoStr) :
    chainAll cfg prov word cands =
      match firstSucc prov.primary cands with
      | some (o, c) =>
        ((o, c, str "online"), (takeUntilSucc prov.primary cands).map ProvCall.primary)
      | none =>
        match firstSucc prov.wiktionary cands with
        | some (o, c) =>
          ((o, c, str "wiktionary"),
           cands.map ProvCall.primary ++ (takeUntilSucc prov.wiktionary cands).map ProvCall.wiktionary)
        | none =>
          if cfg.noOffline = true then
            ((str "No definition found.", word, str "none"),
             cands.map ProvCall.primary ++ cands.map ProvCall.wiktionary)
          else
            match firstSucc prov.offline cands with
            | some (o, c) =>
              ((o, c, str "offline"),
               cands.map ProvCall.primary ++ cands.map ProvCall.wiktionary ++
                 (takeUntilSucc prov.offline cands).map ProvCall.offline)
            | none =>
              ((str "No definition found.", word, str "none"),
               cands.map ProvCall.primary ++ cands.map ProvCall.wiktionary ++
                 cands.map ProvCall.offline) := by
  unfold chainAll
  rw [tryChain_eq prov.primary, tryChain_eq prov.wiktionary, tryChain_eq prov.offline]
  cases h1 : firstSucc prov.primary cands with
  | some oc1 =>
    cases oc1 with
    | mk o c => rfl
  | none =>
    rw [takeUntilSucc_of_none _ _ h1]
    cases h2 : firstSucc prov.wiktionary cands with
    | some oc2 =>
      cases oc2 with
      | mk o c => rfl
    | none =>
      rw [takeUntilSucc_of_none _ _ h2]
      cases hno : cfg.noOffline with
      | true => simp
      | false =>
        simp only [Bool.false_eq_true, if_false]
        cases h3 : firstSucc prov.offline cands with
        | some oc3 =>
          cases oc3 with
          | mk o c => rfl
        | none =>
          rw [takeUntilSucc_of_none _ _ h3]

/-! ### Lemmas about the LRU cache -/

theorem evictFuel_eq (n : Nat) :
    ∀ (l : List cacheItem) (m : Nat), l.length ≤ n →
      evictFuel n l m = if l.length ≤ m then l else l.take m := by
  induction n with
  | zero =>
    intro l m hl
    have : l = [] := List.length_eq_zero.mp (Nat.le_zero.mp hl)
    subst this
    simp [evictFuel]
  | succ n ih =>
    intro l m hl
    by_cases hm : l.length ≤ m
    · simp only [evictFuel, if_pos hm]
      rw [if_neg (by omega)]
    · have hlen : m < l.length := Nat.lt_of_not_le hm
      simp only [evictFuel, if_pos hlen, if_neg hm]
      have hdrop : l.dropLast.length ≤ n := by
        have := List.length_dropLast l
        omega
      rw [ih l.dropLast m hdrop]
      have hdl : l.dropLast = l.take (l.length - 1) := List.dropLast_eq_take l
      by_cases hm2 : l.dropLast.length ≤ m
      · rw [if_pos hm2, hdl]
        have : l.length - 1 = m := by
          have := List.length_dropLast l
          rw [hdl] at hm2
          simp only [List.length_take] at hm2
          omega
        rw [this]
      · rw [if_neg hm2, hdl, List.take_take]
        congr 1
        omega

theorem evictLoop_eq (l : List cacheItem) (m : Nat) :
    evictLoop l m = if l.length ≤ m then l else l.take m :=
  evictFuel_eq l.length l m (Nat.le_refl _)

theorem lruCache.get_of_find_none (c : lruCache) (now : Nat) (key : GoStr)
    (h : memFind c key = none) : c.get now key = (none, c) := by
  unfold lruCache.get
  unfold memFind at h
  rw [h]

theorem lruCache.get_front (c : lruCache) (now : Nat) (key : GoStr) (it : cacheItem)
    (rest : List cacheItem) (hll : c.ll = it :: rest) (hkey : it.key = key)
    (hfresh : now - it.ts ≤ c.ttl) : c.get now key = (some it, c) := by
  unfold lruCache.get
  have hfind : c.ll.find? (fun jt => jt.key == key) = some it := by
    rw [hll]
    exact List.find?_cons_of_pos _ (by simp [hkey])
  rw [hfind]
  dsimp only
  rw [if_neg (by omega)]
  have herase : c.ll.eraseP (fun jt => jt.key == key) = rest := by
    rw [hll]
    exact List.eraseP_cons_of_pos (by simp [hkey])
  rw [herase]
  have : { c with ll := it :: rest } = c := by
    cases c
    simp_all
  rw [this]

theorem lruCache.set_head (c : lruCache) (now : Nat) (key title body full src : GoStr)
    (hmax : 0 < c.max) :
    ((c.set now key title body full src).ll).head? =
      some ⟨key, title, body, full, now, src⟩ := by
  unfold lruCache.set
  cases hf : c.ll.find? (fun it => it.key == key) with
  | some it => rfl
  | none =>
    simp only
    rw [evictLoop_eq]
    by_cases h : (cacheItem.mk key title body full now src :: c.ll).length ≤ c.max
    · rw [if_pos h]; rfl
    · rw [if_neg h]
      cases hm : c.max with
      | zero => omega
      | succ m => rfl

theorem lruCache.set_max (c : lruCache) (now : Nat) (key title body full src : GoStr) :
    (c.set now key title body full src).max = c.max := by
  unfold lruCache.set
  cases c.ll.find? (fun it => it.key == key) <;> rfl

theorem lruCache.set_ttl (c : lruCache) (now : Nat) (key title body full src : GoStr) :
    (c.set now key title body full src).ttl = c.ttl := by
  unfold lruCache.set
  cases c.ll.find? (fun it => it.key == key) <;> rfl

theorem lruCache.get_snd_max (c : lruCache) (now : Nat) (key : GoStr) :
    (c.get now key).2.max = c.max := by
  unfold lruCache.get
  cases c.ll.find? (fun it => it.key == key) with
  | none => rfl
  | some it =>
    dsimp only
    by_cases h : c.ttl < now - it.ts
    · rw [if_pos h]
    · rw [if_neg h]

theorem lruCache.get_snd_ttl (c : lruCache) (now : Nat) (key : GoStr) :
    (c.get now key).2.ttl = c.ttl := by
  unfold lruCache.get
  cases c.ll.find? (fun it => it.key == key) with
  | none => rfl
  | some it =>
    dsimp only
    by_cases h : c.ttl < now - it.ts
    · rw [if_pos h]
    · rw [if_neg h]

theorem lruCache.get_some_dest (c : lruCache) (now : Nat) (key : GoStr) (it : cacheItem)
    (c' : lruCache) (h : c.get now key = (some it, c')) :
    it.key = key ∧ c'.ll = it :: c.ll.eraseP (fun jt => jt.key == key) := by
  unfold lruCache.get at h
  cases hf : c.ll.find? (fun jt => jt.key == key) with
  | none =>
    rw [hf] at h
    simp at h
  | some jt =>
    rw [hf] at h
    dsimp only at h
    by_cases hstale : c.ttl < now - jt.ts
    · rw [if_pos hstale] at h
      simp at h
    · rw [if_neg hstale] at h
      simp only [Prod.mk.injEq] at h
      obtain ⟨h1, h2⟩ := h
      injection h1 with h1
      subst h2
      rw [← h1]
      have hk := List.find?_some hf
      simp only [beq_iff_eq] at hk
      exact ⟨hk, rfl⟩

/-! ### Path lemmas for `resolveDefinition` -/

theorem resolve_mem_hit (cfg : config) (prov : Providers) (now : Nat) (st : ResolveState)
    (word : GoStr) (it : cacheItem) (mem1 : lruCache)
    (hget : st.mem.get now (goToLower word) = (some it, mem1)) :
    resolveDefinition cfg prov now st word =
      (⟨it.title, it.body, it.full, it.src, []⟩, { st with mem := mem1 }, []) := by
  unfold resolveDefinition
  dsimp only
  rw [hget]

theorem resolve_disk_hit (cfg : config) (prov : Providers) (now : Nat) (st : ResolveState)
    (word : GoStr) (mem1 : lruCache) (de : diskEntry)
    (hget : st.mem.get now (goToLower word) = (none, mem1))
    (hdf : diskLookupFresh st.disk (goToLower word) now = some de) :
    resolveDefinition cfg prov now st word =
      (⟨de.title, de.body, de.full, de.source, []⟩,
       { st with
           mem := mem1.set now (goToLower word) de.title de.body de.full de.source }, []) := by
  unfold resolveDefinition
  dsimp only
  rw [hget]
  dsimp only
  rw [hdf]

theorem resolve_chain (cfg : config) (prov : Providers) (now : Nat) (st : ResolveState)
    (word : GoStr) (mem1 : lruCache) (out used source : GoStr) (calls : List ProvCall)
    (hget : st.mem.get now (goToLower word) = (none, mem1))
    (hdf : diskLookupFresh st.disk (goToLower word) now = none)
    (hca : chainAll cfg prov word (lemmaCandidates word) = ((out, used, source), calls)) :
    resolveDefinition cfg prov now st word =
      (let showWord :=
        if used ≠ ([] : GoStr) ∧ goToLower word ≠ used then
          cap1 word ++ str " → " ++ cap1 used
        else cap1 word
       let full := trimSpace out
       let body := str "<b><i>" ++ showWord ++ str "</i></b>\n" ++ clampBody full
       let title := str "📘 " ++ cap1 word ++ str " " ++ sourceEmoji source
       (⟨title, body, full, source, used⟩,
        { mem := mem1.set now (goToLower word) title body full source,
          disk := insertD st.disk (goToLower word) ⟨title, body, full, now, source⟩,
          diskDirty := true,
          lastFile := some full },
        calls)) := by
  unfold resolveDefinition
  dsimp only
  rw [hget]
  dsimp only
  rw [hdf]
  dsimp only
  rw [hca]

theorem resolve_mem_dims (cfg : config) (prov : Providers) (now : Nat) (st : ResolveState)
    (word : GoStr) :
    (resolveDefinition cfg prov now st word).2.1.mem.ttl = st.mem.ttl ∧
    (resolveDefinition cfg prov now st word).2.1.mem.max = st.mem.max := by
  cases hget : st.mem.get now (goToLower word) with
  | mk o mem1 =>
    have hmax1 : mem1.max = st.mem.max := by
      have h := lruCache.get_snd_max st.mem now (goToLower word)
      rw [hget] at h
      exact h
    have httl1 : mem1.ttl = st.mem.ttl := by
      have h := lruCache.get_snd_ttl st.mem now (goToLower word)
      rw [hget] at h
      exact h
    cases o with
    | some it =>
      rw [resolve_mem_hit cfg prov now st word it mem1 hget]
      exact ⟨httl1, hmax1⟩
    | none =>
      cases hdf : diskLookupFresh st.disk (goToLower word) now with
      | some de =>
        rw [resolve_disk_hit cfg prov now st word mem1 de hget hdf]
        dsimp only
        rw [lruCache.set_ttl, lruCache.set_max]
        exact ⟨httl1, hmax1⟩
      | none =>
        rcases hca : chainAll cfg prov word (lemmaCandidates word) with ⟨⟨out, used, source⟩, calls⟩
        rw [resolve_chain cfg prov now st word mem1 out used source calls hget hdf hca]
        dsimp only
        rw [lruCache.set_ttl, lruCache.set_max]
        exact ⟨httl1, hmax1⟩

theorem resolve_mem_after (cfg : config) (prov : Providers) (now : Nat) (st : ResolveState)
    (word : GoStr) (hmax : 0 < st.mem.max) :
    ∃ ts, ((resolveDefinition cfg prov now st word).2.1.mem.ll).head? =
      some ⟨goToLower word, (resolveDefinition cfg prov now st word).1.title,
            (resolveDefinition cfg prov now st word).1.body,
            (resolveDefinition cfg prov now st word).1.full, ts,
            (resolveDefinition cfg prov now st word).1.source⟩ := by
  cases hget : st.mem.get now (goToLower word) with
  | mk o mem1 =>
    have hmax1 : mem1.max = st.mem.max := by
      have h := lruCache.get_snd_max st.mem now (goToLower word)
      rw [hget] at h
      exact h
    cases o with
    | some it =>
      obtain ⟨hkey, hll⟩ := lruCache.get_some_dest st.mem now (goToLower word) it mem1 hget
      rw [resolve_mem_hit cfg prov now st word it mem1 hget]
      refine ⟨it.ts, ?_⟩
      dsimp only
      rw [hll, ← hkey]
      rfl
    | none =>
      cases hdf : diskLookupFresh st.disk (goToLower word) now with
      | some de =>
        rw [resolve_disk_hit cfg prov now st word mem1 de hget hdf]
        refine ⟨now, ?_⟩
        dsimp only
        exact lruCache.set_head mem1 now _ _ _ _ _ (by omega)
      | none =>
        rcases hca : chainAll cfg prov word (lemmaCandidates word) with ⟨⟨out, used, source⟩, calls⟩
        rw [resolve_chain cfg prov now st word mem1 out used source calls hget hdf hca]
        refine ⟨now, ?_⟩
        dsimp only
        exact lruCache.set_head mem1 now _ _ _ _ _ (by omega)

theorem resolve_second_hit (cfg : config) (prov : Providers) (now : Nat) (st : ResolveState)
    (word : GoStr) (it : cacheItem) (hhead : st.mem.ll.head? = some it)
    (hkey : it.key = goToLower word) (hfresh : now - it.ts ≤ st.mem.ttl) :
    resolveDefinition cfg prov now st word = (⟨it.title, it.body, it.full, it.src, []⟩, st, []) := by
  obtain ⟨rest, hll⟩ : ∃ rest, st.mem.ll = it :: rest := by
    cases hml : st.mem.ll with
    | nil => rw [hml] at hhead; cases hhead
    | cons a l =>
      rw [hml] at hhead
      injection hhead with h
      exact ⟨l, by rw [h]⟩
  have hget := lruCache.get_front st.mem now (goToLower word) it rest hll hkey hfresh
  rw [resolve_mem_hit cfg prov now st word it st.mem hget]

/-! ### Lemmas about trimming, for the body/full invariant -/

theorem head_dropWhile_not (p : Char → Bool) (l : GoStr) (c : Char)
    (h : (l.dropWhile p).head? = some c) : p c = false := by
  induction l with
  | nil => cases h
  | cons a rest ih =>
    by_cases hp : p a = true
    · rw [List.dropWhile_cons_of_pos hp] at h
      exact ih h
    · rw [List.dropWhile_cons_of_neg hp] at h
      injection h with h
      rw [← h]
      exact Bool.not_eq_true _ ▸ (by simpa using hp)

theorem dropWhile_of_head_not (p : Char → Bool) (l : GoStr)
    (h : ∀ c, l.head? = some c → p c = false) : l.dropWhile p = l := by
  cases l with
  | nil => rfl
  | cons a rest =>
    have := h a rfl
    rw [List.dropWhile_cons_of_neg (by simp [this])]

theorem trimRight_isP (s : GoStr) : trimRight s <+: s := by
  unfold trimRight
  have hsuf : s.reverse.dropWhile isSpaceChar <:+ s.reverse :=
    ⟨s.reverse.takeWhile isSpaceChar, List.takeWhile_append_dropWhile _ _⟩
  have := List.reverse_prefix.mpr hsuf
  rwa [List.reverse_reverse] at this

theorem isP_head (l1 l2 : GoStr) (c : Char) (h : l1 <+: l2) (hh : l1.head? = some c) :
    l2.head? = some c := by
  obtain ⟨t, rfl⟩ := h
  cases l1 with
  | nil => cases hh
  | cons a r => injection hh with hh; simp [hh]

theorem take_head (l : GoStr) (n : Nat) (c : Char) (h : (l.take n).head? = some c) :
    l.head? = some c :=
  isP_head _ _ _ (List.take_prefix n l) h

theorem trimSpace_head_not (s : GoStr) (c : Char) (h : (trimSpace s).head? = some c) :
    isSpaceChar c = false := by
  unfold trimSpace at h
  have hleft : (trimLeft s).head? = some c :=
    isP_head _ _ _ (trimRight_isP (trimLeft s)) h
  exact head_dropWhile_not isSpaceChar s c hleft

theorem trimSpace_take_isP (s : GoStr) (n : Nat) :
    trimSpace ((trimSpace s).take n) <+: trimSpace s := by
  have hleft : trimLeft ((trimSpace s).take n) = (trimSpace s).take n := by
    apply dropWhile_of_head_not
    intro c hc
    exact trimSpace_head_not s c (take_head _ _ _ hc)
  have heq : trimSpace ((trimSpace s).take n) = trimRight ((trimSpace s).take n) := by
    show trimRight (trimLeft ((trimSpace s).take n)) = trimRight ((trimSpace s).take n)
    rw [hleft]
  rw [heq]
  exact (trimRight_isP _).trans (List.take_prefix n (trimSpace s))

theorem trimSpace_length_le (l : GoStr) : (trimSpace l).length ≤ l.length := by
  have h1 : (trimRight (trimLeft l)).length ≤ (trimLeft l).length :=
    (trimRight_isP _).length_le
  have h2 : (trimLeft l).length ≤ l.length := by
    unfold trimLeft
    exact (List.dropWhile_suffix _).length_le
  exact le_trans h1 h2

theorem clampBody_short (s : GoStr) (h : (trimSpace s).length ≤ bodyMaxChars) :
    clampBody s = trimSpace s := by
  unfold clampBody
  rw [if_pos h]

theorem clampBody_long (s : GoStr) (h : bodyMaxChars < (trimSpace s).length) :
    clampBody s =
      trimSpace ((trimSpace s).take (bodyMaxChars - 80)) ++ str "\n\n… (click to open full)" := by
  unfold clampBody
  rw [if_neg (by omega)]

theorem clampBody_len (s : GoStr) : (clampBody s).length ≤ bodyMaxChars := by
  by_cases h : (trimSpace s).length ≤ bodyMaxChars
  · rw [clampBody_short s h]; exact h
  · rw [clampBody_long s (by omega), List.length_append]
    have h1 : (trimSpace ((trimSpace s).take (bodyMaxChars - 80))).length ≤ bodyMaxChars - 80 :=
      le_trans (trimSpace_length_le _) (by simp [List.length_take])
    have h2 : (str "\n\n… (click to open full)").length = 24 := by decide
    rw [h2]
    unfold bodyMaxChars at h1 ⊢
    omega

/-! ### Small map lemmas -/

theorem memFind_of_head (c : lruCache) (it : cacheItem) (key : GoStr)
    (hhead : c.ll.head? = some it) (hkey : it.key = key) : memFind c key = some it := by
  cases hml : c.ll with
  | nil => rw [hml] at hhead; cases hhead
  | cons a l =>
    rw [hml] at hhead
    injection hhead with h
    subst h
    unfold memFind
    rw [hml]
    exact List.find?_cons_of_pos _ (by simp [hkey])

theorem lookupD_insertD (m : DiskMap) (k : GoStr) (v : diskEntry) :
    lookupD (insertD m k v) k = some v := by
  unfold lookupD insertD
  rw [List.find?_cons_of_pos _ (by simp)]
  rfl

theorem chainAll_calls_cons (cfg : config) (prov : Providers) (word c0 : GoStr)
    (rest : List GoStr) :
    ∃ tr, (chainAll cfg prov word (c0 :: rest)).2 = ProvCall.primary c0 :: tr := by
  rw [chainAll_eq]
  cases h1 : firstSucc prov.primary (c0 :: rest) with
  | some oc =>
    obtain ⟨o, c⟩ := oc
    dsimp only
    obtain ⟨r, hr⟩ := takeUntilSucc_cons prov.primary c0 rest
    rw [hr]
    exact ⟨r.map ProvCall.primary, by simp⟩
  | none =>
    cases h2 : firstSucc prov.wiktionary (c0 :: rest) with
    | some oc =>
      obtain ⟨o, c⟩ := oc
      dsimp only
      exact ⟨rest.map ProvCall.primary ++
        (takeUntilSucc prov.wiktionary (c0 :: rest)).map ProvCall.wiktionary, by simp⟩
    | none =>
      cases hno : cfg.noOffline with
      | true =>
        dsimp only
        rw [if_pos rfl]
        exact ⟨rest.map ProvCall.primary ++ (c0 :: rest).map ProvCall.wiktionary, by simp⟩
      | false =>
        dsimp only
        rw [if_neg (by simp)]
        cases h3 : firstSucc prov.offline (c0 :: rest) with
        | some oc =>
          obtain ⟨o, c⟩ := oc
          dsimp only
          exact ⟨rest.map ProvCall.primary ++ (c0 :: rest).map ProvCall.wiktionary ++
            (takeUntilSucc prov.offline (c0 :: rest)).map ProvCall.offline, by simp⟩
        | none =>
          exact ⟨rest.map ProvCall.primary ++ (c0 :: rest).map ProvCall.wiktionary ++
            (c0 :: rest).map ProvCall.offline, by simp⟩

/-! ### Claim theorems -/

/-- Claim C3 counterexample: the claim states
`lemmas("puppies") = ["puppies", "puppy"]`, but the code applies the
"-es" strip and the "-s" strip as well (the three suffix rules are
independent `if` statements), so `lemmaCandidates "puppies"` also
contains "puppi" and "puppie". -/
theorem lemmaCandidates_puppies_cx :
    lemmaCandidates (str "puppies") ≠ [str "puppies", str "puppy"] := by decide

/-- Claim C3 (amended): `lemmaCandidates` is a pure function returning
an ordered duplicate-free list headed by the lowercased input word;
concretely `lemmas("cats") = ["cats", "cat"]`,
`lemmas("puppies") = ["puppies", "puppy", "puppi", "puppie"]` (every
applicable suffix strip is applied independently), and
`lemmas("class") = ["class"]` with no stripped "clas". -/
theorem lemmaCandidates_spec :
    (∀ w : GoStr,
      (lemmaCandidates w).head? = some (goToLower w) ∧ (lemmaCandidates w).Nodup) ∧
    lemmaCandidates (str "cats") = [str "cats", str "cat"] ∧
    lemmaCandidates (str "puppies") = [str "puppies", str "puppy", str "puppi", str "puppie"] ∧
    lemmaCandidates (str "class") = [str "class"] := by
  refine ⟨fun w => ⟨?_, ?_⟩, by decide, by decide, by decide⟩
  · obtain ⟨rest, h⟩ := lemmaCandidates_shape w
    rw [h]
    rfl
  · simp only [lemmaCandidates]
    exact dedupeAux_nodup _ _

/-- Claim C4 counterexample: at a dirty tick whose temp-file write
fails, the code clears the dirty flag anyway (`diskDirty = false` is
set unconditionally after `saveDiskCacheAtomic` returns), so the next
tick — even with writes succeeding again — flushes nothing and the
on-disk snapshot keeps its old contents. -/
theorem flush_failure_cx :
    (flushTick ⟨some [], none⟩ [(str "cat", entOnline)] true false true).2 = false ∧
    flushTick (flushTick ⟨some [], none⟩ [(str "cat", entOnline)] true false true).1
        [(str "cat", entOnline)]
        (flushTick ⟨some [], none⟩ [(str "cat", entOnline)] true false true).2 true true =
      ((⟨some [], none⟩ : DiskFS), false) := by decide

/-- Claim C4 (amended): if the flush write fails (temp-file write or
rename error), the previous on-disk snapshot is left intact, but the
dirty flag is cleared unconditionally, so the flush is NOT retried at
the next tick unless a new mutation marks the cache dirty again. -/
theorem flush_failure_amended (fs : DiskFS) (m : DiskMap) (writeOk renameOk : Bool)
    (hfail : writeOk = false ∨ renameOk = false) :
    (flushTick fs m true writeOk renameOk).1.main = fs.main ∧
    (flushTick fs m true writeOk renameOk).2 = false ∧
    (∀ w2 r2, flushTick (flushTick fs m true writeOk renameOk).1 m false w2 r2 =
      ((flushTick fs m true writeOk renameOk).1, false)) := by
  refine ⟨?_, ?_, ?_⟩
  · rcases hfail with h | h <;> subst h
    · simp [flushTick, saveDiskCacheAtomic]
    · cases writeOk <;> simp [flushTick, saveDiskCacheAtomic]
  · simp [flushTick]
  · intro w2 r2
    rfl

/-- Claim C4 amended witness: a concrete failed-write tick. -/
theorem flush_failure_amended_witness :
    (flushTick ⟨some [], none⟩ [(str "cat", entOnline)] true false true).1.main =
      (⟨some [], none⟩ : DiskFS).main ∧
    (flushTick ⟨some [], none⟩ [(str "cat", entOnline)] true false true).2 = false ∧
    (∀ w2 r2,
      flushTick (flushTick ⟨some [], none⟩ [(str "cat", entOnline)] true false true).1
          [(str "cat", entOnline)] false w2 r2 =
        ((flushTick ⟨some [], none⟩ [(str "cat", entOnline)] true false true).1, false)) :=
  flush_failure_amended ⟨some [], none⟩ [(str "cat", entOnline)] false true (Or.inl rfl)

/-- Claim C7 counterexample: with a primary provider that errors for
"legends" but defines "legend", the resolution succeeds via lemma
"legend", yet the `title` of the result does NOT contain
"Legends → Legend": the arrow rendering is placed in the `body`, while
the title is the book emoji, the capitalized requested word and the
source emoji. -/
theorem scenario_legend_title_cx :
    containsSub (resolveDefinition cfg0 provLegend 0 st0 (str "legends")).1.title
      (str "Legends → Legend") = false := by decide

/-- Claim C7 (amended): with a primary provider that errors for
"legends" but defines "legend", `resolve("legends")` succeeds with
used lemma "legend", source kind `online`, and a **body** containing
"Legends → Legend"; the title does not carry the arrow rendering. -/
theorem scenario_legend_amended :
    (resolveDefinition cfg0 provLegend 0 st0 (str "legends")).1.source = str "online" ∧
    (resolveDefinition cfg0 provLegend 0 st0 (str "legends")).1.used = str "legend" ∧
    containsSub (resolveDefinition cfg0 provLegend 0 st0 (str "legends")).1.body
      (str "Legends → Legend") = true ∧
    containsSub (resolveDefinition cfg0 provLegend 0 st0 (str "legends")).1.title
      (str "Legends → Legend") = false := by decide

/-- Claim C8: inserting a fresh key into a full memory cache of
capacity N (≥ 2, all keys distinct from the new one) evicts exactly
the least-recently-touched entry — the new list is the fresh item
followed by everything but the back item — and a `get` on a key
refreshes its recency, so a key touched before the insertion survives
it. -/
theorem lru_eviction (c : lruCache) (now1 now2 now3 : Nat)
    (k k2 title body full src : GoStr) (it : cacheItem)
    (hfull : c.ll.length = c.max)
    (hmax : 2 ≤ c.max)
    (hnew : ∀ j ∈ c.ll, j.key ≠ k)
    (hfound : memFind c k2 = some it)
    (hfresh : now2 - it.ts ≤ c.ttl) :
    (c.set now1 k title body full src).ll =
      ⟨k, title, body, full, now1, src⟩ :: c.ll.dropLast ∧
    memFind ((c.get now2 k2).2.set now3 k title body full src) k2 = some it := by
  unfold memFind at hfound
  have hkey2 : it.key = k2 := by
    have := List.find?_some hfound
    simpa using this
  have hmem_it : it ∈ c.ll := List.mem_of_find?_eq_some hfound
  have hk2k : k2 ≠ k := by
    intro h
    exact hnew it hmem_it (hkey2.trans h)
  have hfindk : ∀ l : List cacheItem, (∀ j ∈ l, j.key ≠ k) →
      l.find? (fun jt => jt.key == k) = none := by
    intro l hl
    exact List.find?_eq_none.mpr (fun a ha => by simp [hl a ha])
  constructor
  · unfold lruCache.set
    rw [hfindk c.ll hnew]
    dsimp only
    rw [evictLoop_eq]
    have hlen : (cacheItem.mk k title body full now1 src :: c.ll).length = c.max + 1 := by
      simp [hfull]
    rw [if_neg (by omega)]
    have hm : c.max = (c.max - 1) + 1 := by omega
    rw [hm, List.take_succ_cons]
    congr 1
    have hdl : c.ll.dropLast = c.ll.take (c.ll.length - 1) := List.dropLast_eq_take c.ll
    rw [hdl, hfull]
  · unfold lruCache.get
    rw [hfound]
    dsimp only
    rw [if_neg (by omega)]
    have herase_mem : ∀ j ∈ c.ll.eraseP (fun jt => jt.key == k2), j ∈ c.ll :=
      fun j hj => (List.eraseP_sublist c.ll).mem hj
    have herase_len : (c.ll.eraseP (fun jt => jt.key == k2)).length = c.ll.length - 1 :=
      List.length_eraseP_of_mem hmem_it (by simp [hkey2])
    unfold lruCache.set
    dsimp only
    rw [hfindk (it :: c.ll.eraseP (fun jt => jt.key == k2))
      (by
        intro j hj
        rcases List.mem_cons.mp hj with rfl | hj
        · rw [hkey2]; exact hk2k
        · exact hnew j (herase_mem j hj))]
    dsimp only
    rw [evictLoop_eq]
    have hlen2 : (cacheItem.mk k title body full now3 src ::
        it :: c.ll.eraseP (fun jt => jt.key == k2)).length = c.max + 1 := by
      simp [herase_len]
      omega
    rw [if_neg (by omega)]
    have hm : c.max = (c.max - 2) + 2 := by omega
    rw [hm]
    unfold memFind
    dsimp only
    rw [List.take_succ_cons, List.take_succ_cons]
    rw [List.find?_cons_of_neg _ (by simp [hk2k.symm])]
    rw [List.find?_cons_of_pos _ (by simp [hkey2])]

/-- Claim C8 witness: a concrete capacity-2 cache. -/
theorem lru_eviction_witness :
    (cacheAB.set 5 (str "cc") (str "t") (str "b") (str "f") (str "online")).ll =
      ⟨str "cc", str "t", str "b", str "f", 5, str "online"⟩ :: cacheAB.ll.dropLast ∧
    memFind ((cacheAB.get 6 (str "bb")).2.set 7 (str "cc") (str "t") (str "b") (str "f")
      (str "online")) (str "bb") = some itemB :=
  lru_eviction cacheAB 5 6 7 (str "cc") (str "bb") (str "t") (str "b") (str "f")
    (str "online") itemB (by decide) (by decide) (by decide) (by decide) (by decide)

/-- Claim C9: truncation applies only to the display body, never to
the stored full text.  `clampBody` returns the trimmed text unchanged
when it is within the cap; over the cap it returns a trimmed portion
that is a true prefix segment of the full text with the truncation
marker appended, and the clamped rendering never exceeds the cap.  On
a chain resolution the stored `full` is exactly the trimmed provider
output (whatever its length) and `body` is a header followed by
`clampBody full`. -/
theorem clamp_body_spec :
    (∀ s : GoStr, (trimSpace s).length ≤ bodyMaxChars → clampBody s = trimSpace s) ∧
    (∀ s : GoStr, bodyMaxChars < (trimSpace s).length →
      clampBody s = trimSpace ((trimSpace s).take (bodyMaxChars - 80)) ++
        str "\n\n… (click to open full)" ∧
      trimSpace ((trimSpace s).take (bodyMaxChars - 80)) <+: trimSpace s ∧
      (clampBody s).length ≤ bodyMaxChars) ∧
    (∀ (cfg : config) (prov : Providers) (now : Nat) (st : ResolveState)
       (word : GoStr) (mem1 : lruCache) (out used source : GoStr) (calls : List ProvCall),
      st.mem.get now (goToLower word) = (none, mem1) →
      diskLookupFresh st.disk (goToLower word) now = none →
      chainAll cfg prov word (lemmaCandidates word) = ((out, used, source), calls) →
      (resolveDefinition cfg prov now st word).1.full = trimSpace out ∧
      ∃ hdr, (resolveDefinition cfg prov now st word).1.body =
        hdr ++ clampBody ((resolveDefinition cfg prov now st word).1.full)) := by
  refine ⟨fun s h => clampBody_short s h, fun s h => ⟨clampBody_long s h,
    trimSpace_take_isP s _, clampBody_len s⟩, ?_⟩
  intro cfg prov now st word mem1 out used source calls hget hdf hca
  rw [resolve_chain cfg prov now st word mem1 out used source calls hget hdf hca]
  dsimp only
  refine ⟨rfl, ⟨str "<b><i>" ++
    (if used ≠ ([] : GoStr) ∧ goToLower word ≠ used then
      cap1 word ++ str " → " ++ cap1 used
    else cap1 word) ++ str "</i></b>\n", ?_⟩⟩
  have hcb : clampBody (trimSpace out) = clampBody out := by
    unfold clampBody
    have : trimSpace (trimSpace out) = trimSpace out := by
      have hl : trimLeft (trimSpace out) = trimSpace out := by
        apply dropWhile_of_head_not
        intro c hc
        exact trimSpace_head_not out c hc
      show trimRight (trimLeft (trimSpace out)) = trimSpace out
      rw [hl]
      show trimRight (trimRight (trimLeft out)) = trimRight (trimLeft out)
      unfold trimRight
      rw [List.reverse_reverse]
      congr 1
      apply dropWhile_of_head_not
      intro c hc
      have hsuffix : (trimLeft out).reverse.dropWhile isSpaceChar <:+
          (trimLeft out).reverse := List.dropWhile_suffix _
      exact head_dropWhile_not isSpaceChar (trimLeft out).reverse c hc
    rw [this]
  rw [hcb]

set_option maxRecDepth 100000 in
/-- Claim C9 witness: a short text is rendered unchanged; a 1401-char
text is clamped within the cap; a concrete chain resolution stores the
untruncated trimmed provider text with the body derived from it. -/
theorem clamp_body_spec_witness :
    (clampBody (str " hi ") = trimSpace (str " hi ")) ∧
    ((clampBody (List.replicate 1401 'a')).length ≤ bodyMaxChars) ∧
    ((resolveDefinition cfg0 provLegend 0 st0 (str "legends")).1.full =
       trimSpace (str "a story handed down") ∧
     ∃ hdr, (resolveDefinition cfg0 provLegend 0 st0 (str "legends")).1.body =
       hdr ++ clampBody ((resolveDefinition cfg0 provLegend 0 st0 (str "legends")).1.full)) :=
  ⟨clamp_body_spec.1 (str " hi ") (by decide),
   (clamp_body_spec.2.1 (List.replicate 1401 'a') (by decide)).2.2,
   clamp_body_spec.2.2 cfg0 provLegend 0 st0 (str "legends") st0.mem
     (str "a story handed down") (str "legend") (str "online")
     [ProvCall.primary (str "legends"), ProvCall.primary (str "legend")]
     (by decide) (by decide) (by decide)⟩

/-- Claim C10: on any cache hit — a fresh memory-tier hit, or a
persisted-tier hit passing its freshness rule — `resolveDefinition`
leaves the persisted map, the dirty flag and the last-resolution
artifact untouched (only the memory tier is touched, for recency or
promotion); only a resolution that actually runs the provider chain
rewrites the last-resolution artifact (with the new full text) and
sets the dirty flag. -/
theorem resolve_hit_frame (cfg : config) (prov : Providers) (now : Nat) (st : ResolveState)
    (word : GoStr) :
    (((st.mem.get now (goToLower word)).1.isSome = true →
       (resolveDefinition cfg prov now st word).2.1.disk = st.disk ∧
       (resolveDefinition cfg prov now st word).2.1.diskDirty = st.diskDirty ∧
       (resolveDefinition cfg prov now st word).2.1.lastFile = st.lastFile) ∧
     ((st.mem.get now (goToLower word)).1 = none →
      diskLookupFresh st.disk (goToLower word) now ≠ none →
       (resolveDefinition cfg prov now st word).2.1.disk = st.disk ∧
       (resolveDefinition cfg prov now st word).2.1.diskDirty = st.diskDirty ∧
       (resolveDefinition cfg prov now st word).2.1.lastFile = st.lastFile)) ∧
    ((st.mem.get now (goToLower word)).1 = none →
     diskLookupFresh st.disk (goToLower word) now = none →
       (resolveDefinition cfg prov now st word).2.1.lastFile =
         some (resolveDefinition cfg prov now st word).1.full ∧
       (resolveDefinition cfg prov now st word).2.1.diskDirty = true) := by
  cases hget : st.mem.get now (goToLower word) with
  | mk o mem1 =>
    cases o with
    | some it =>
      rw [resolve_mem_hit cfg prov now st word it mem1 hget]
      exact ⟨⟨fun _ => ⟨rfl, rfl, rfl⟩, fun h => absurd h (by simp)⟩, fun h => absurd h (by simp)⟩
    | none =>
      cases hdf : diskLookupFresh st.disk (goToLower word) now with
      | some de =>
        rw [resolve_disk_hit cfg prov now st word mem1 de hget hdf]
        exact ⟨⟨fun h => by simp at h, fun _ _ => ⟨rfl, rfl, rfl⟩⟩,
          fun _ h => nomatch h⟩
      | none =>
        rcases hca : chainAll cfg prov word (lemmaCandidates word) with ⟨⟨out, used, source⟩, calls⟩
        rw [resolve_chain cfg prov now st word mem1 out used source calls hget hdf hca]
        exact ⟨⟨fun h => by simp at h, fun _ h => absurd rfl h⟩, fun _ _ => ⟨rfl, rfl⟩⟩

/-- Claim C10 witness: a memory hit, a persisted-tier hit and a full
miss, at concrete states. -/
theorem resolve_hit_frame_witness :
    ((resolveDefinition cfg0 provFailAll 5 stMemHit (str "aa")).2.1.disk = stMemHit.disk ∧
     (resolveDefinition cfg0 provFailAll 5 stMemHit (str "aa")).2.1.diskDirty =
       stMemHit.diskDirty ∧
     (resolveDefinition cfg0 provFailAll 5 stMemHit (str "aa")).2.1.lastFile =
       stMemHit.lastFile) ∧
    ((resolveDefinition cfg0 provFailAll 5 stDiskOnline (str "cat")).2.1.disk =
       stDiskOnline.disk ∧
     (resolveDefinition cfg0 provFailAll 5 stDiskOnline (str "cat")).2.1.diskDirty =
       stDiskOnline.diskDirty ∧
     (resolveDefinition cfg0 provFailAll 5 stDiskOnline (str "cat")).2.1.lastFile =
       stDiskOnline.lastFile) ∧
    ((resolveDefinition cfg0 provFailAll 5 st0 (str "cat")).2.1.lastFile =
       some (resolveDefinition cfg0 provFailAll 5 st0 (str "cat")).1.full ∧
     (resolveDefinition cfg0 provFailAll 5 st0 (str "cat")).2.1.diskDirty = true) :=
  ⟨(resolve_hit_frame cfg0 provFailAll 5 stMemHit (str "aa")).1.1 (by decide),
   (resolve_hit_frame cfg0 provFailAll 5 stDiskOnline (str "cat")).1.2 (by decide) (by decide),
   (resolve_hit_frame cfg0 provFailAll 5 st0 (str "cat")).2 (by decide) (by decide)⟩

/-- Claim C1: resolution is idempotent within the TTL window.  After
one `resolveDefinition` call for `word`, a second call for any word
with the same lowercased key — made while every memory-cache entry is
still within the TTL — returns the identical
`(title, body, full, source)` tuple and performs no provider
invocation, with any providers and flags on the second call. -/
theorem resolve_idempotent_within_ttl (cfg1 cfg2 : config) (prov1 prov2 : Providers)
    (st : ResolveState) (word word2 : GoStr) (t1 t2 : Nat)
    (hmax : 0 < st.mem.max)
    (hkey : goToLower word2 = goToLower word)
    (hwin : ∀ it ∈ (resolveDefinition cfg1 prov1 t1 st word).2.1.mem.ll,
      t2 - it.ts ≤ st.mem.ttl) :
    idemPropC1 cfg1 cfg2 prov1 prov2 st word word2 t1 t2 := by
  obtain ⟨ts, hhead⟩ := resolve_mem_after cfg1 prov1 t1 st word hmax
  have httl : (resolveDefinition cfg1 prov1 t1 st word).2.1.mem.ttl = st.mem.ttl :=
    (resolve_mem_dims cfg1 prov1 t1 st word).1
  have hmem : (⟨goToLower word, (resolveDefinition cfg1 prov1 t1 st word).1.title,
      (resolveDefinition cfg1 prov1 t1 st word).1.body,
      (resolveDefinition cfg1 prov1 t1 st word).1.full, ts,
      (resolveDefinition cfg1 prov1 t1 st word).1.source⟩ : cacheItem) ∈
      (resolveDefinition cfg1 prov1 t1 st word).2.1.mem.ll := by
    cases hml : (resolveDefinition cfg1 prov1 t1 st word).2.1.mem.ll with
    | nil => rw [hml] at hhead; cases hhead
    | cons a l =>
      rw [hml] at hhead
      injection hhead with h
      rw [← h]
      exact List.mem_cons_self _ _
  have hfresh : t2 - ts ≤ (resolveDefinition cfg1 prov1 t1 st word).2.1.mem.ttl := by
    rw [httl]
    exact hwin _ hmem
  have hsecond := resolve_second_hit cfg2 prov2 t2
    (resolveDefinition cfg1 prov1 t1 st word).2.1 word2
    ⟨goToLower word, (resolveDefinition cfg1 prov1 t1 st word).1.title,
     (resolveDefinition cfg1 prov1 t1 st word).1.body,
     (resolveDefinition cfg1 prov1 t1 st word).1.full, ts,
     (resolveDefinition cfg1 prov1 t1 st word).1.source⟩
    hhead hkey.symm hfresh
  unfold idemPropC1
  rw [hsecond]
  exact ⟨rfl, rfl, rfl, rfl, rfl⟩

/-- Claim C1 witness: resolve "legends" at time 5 against the stub
primary provider, then resolve "LEGENDS" (same lowercased key) at
time 7 with providers that always fail: the tuple is identical and no
provider is invoked. -/
theorem resolve_idempotent_witness :
    idemPropC1 cfg0 cfg0 provLegend provFailAll st0 (str "legends") (str "LEGENDS") 5 7 :=
  resolve_idempotent_within_ttl cfg0 cfg0 provLegend provFailAll st0
    (str "legends") (str "LEGENDS") 5 7 (by decide) (by decide) (by decide)

/-- Claim C5 counterexample: the 12-hour staleness rule is applied
only when consulting the persisted tier.  An offline-sourced entry
sitting in the MEMORY tier is still returned 13 hours after its
resolution (the memory tier uses the uniform 30-day TTL for every
source kind), with zero provider invocations — contradicting the
claim that any offline-sourced cached entry older than 12 hours is
not returned. -/
theorem offline_memory_cx :
    (resolveDefinition cfg0 provFailAll (offlineRefreshAfter + 3600000000000) stMemOffline
        (str "cat")).1.source = str "offline" ∧
    (resolveDefinition cfg0 provFailAll (offlineRefreshAfter + 3600000000000) stMemOffline
        (str "cat")).1.full = itemOffC.full ∧
    (resolveDefinition cfg0 provFailAll (offlineRefreshAfter + 3600000000000) stMemOffline
        (str "cat")).2.2 = [] := by decide

/-- Claim C5 (amended): freshness differs by source kind on the
persisted tier.  On a memory miss, a persisted entry of source kind
`offline` older than 12 hours (`offlineRefreshAfter`) is not returned — the resolver re-runs the
provider chain, starting with the primary provider on the lowercased
word — while a persisted entry of any other source kind no older than
30 days (`cacheTTL`) is returned as the result, with no provider
invocation, and promoted into the memory tier. -/
theorem offline_staleness (cfg : config) (prov : Providers) (now : Nat) (st : ResolveState)
    (word : GoStr)
    (hmax : 0 < st.mem.max)
    (hmem : memFind st.mem (goToLower word) = none) :
    (∀ de, lookupD st.disk (goToLower word) = some de →
      de.source = str "offline" → offlineRefreshAfter < now - de.ts →
      ((resolveDefinition cfg prov now st word).2.2).head? =
        some (ProvCall.primary (goToLower word))) ∧
    (∀ de, lookupD st.disk (goToLower word) = some de →
      de.source ≠ str "offline" → now - de.ts ≤ cacheTTL →
      (resolveDefinition cfg prov now st word).1.title = de.title ∧
      (resolveDefinition cfg prov now st word).1.body = de.body ∧
      (resolveDefinition cfg prov now st word).1.full = de.full ∧
      (resolveDefinition cfg prov now st word).1.source = de.source ∧
      (resolveDefinition cfg prov now st word).2.2 = [] ∧
      memFind (resolveDefinition cfg prov now st word).2.1.mem (goToLower word) =
        some ⟨goToLower word, de.title, de.body, de.full, now, de.source⟩) := by
  have hget := lruCache.get_of_find_none st.mem now (goToLower word) hmem
  constructor
  · intro de hde hoff hstale
    have hdf : diskLookupFresh st.disk (goToLower word) now = none := by
      unfold diskLookupFresh
      rw [hde]
      dsimp only
      rw [if_pos ⟨hoff, hstale⟩]
    obtain ⟨rest, hcands⟩ := lemmaCandidates_shape word
    rcases hca : chainAll cfg prov word (lemmaCandidates word) with ⟨⟨out, used, source⟩, calls⟩
    rw [resolve_chain cfg prov now st word st.mem out used source calls hget hdf hca]
    dsimp only
    obtain ⟨tr, htr⟩ := chainAll_calls_cons cfg prov word (goToLower word) rest
    rw [← hcands] at htr
    rw [hca] at htr
    dsimp only at htr
    rw [htr]
    rfl
  · intro de hde hoff hfr
    have hdf : diskLookupFresh st.disk (goToLower word) now = some de := by
      unfold diskLookupFresh
      rw [hde]
      dsimp only
      rw [if_neg (by intro h; exact hoff h.1), if_pos hfr]
    rw [resolve_disk_hit cfg prov now st word st.mem de hget hdf]
    dsimp only
    refine ⟨rfl, rfl, rfl, rfl, rfl, ?_⟩
    exact memFind_of_head _ _ _ (lruCache.set_head st.mem now _ _ _ _ _ hmax) rfl

/-- Claim C5 witness: a stale offline persisted entry for "cat" sends
the resolver back to the primary provider; a 5-nanosecond-old online
persisted entry for "cat" is returned unchanged with no provider
calls and is promoted to memory. -/
theorem offline_staleness_witness :
    ((resolveDefinition cfg0 provFailAll (offlineRefreshAfter + 1) stDiskOffline
        (str "cat")).2.2).head? = some (ProvCall.primary (str "cat")) ∧
    ((resolveDefinition cfg0 provFailAll 5 stDiskOnline (str "cat")).1.title =
        entOnline.title ∧
      (resolveDefinition cfg0 provFailAll 5 stDiskOnline (str "cat")).1.body =
        entOnline.body ∧
      (resolveDefinition cfg0 provFailAll 5 stDiskOnline (str "cat")).1.full =
        entOnline.full ∧
      (resolveDefinition cfg0 provFailAll 5 stDiskOnline (str "cat")).1.source =
        entOnline.source ∧
      (resolveDefinition cfg0 provFailAll 5 stDiskOnline (str "cat")).2.2 = [] ∧
      memFind (resolveDefinition cfg0 provFailAll 5 stDiskOnline (str "cat")).2.1.mem
          (str "cat") =
        some ⟨str "cat", entOnline.title, entOnline.body, entOnline.full, 5,
              entOnline.source⟩) :=
  ⟨(offline_staleness cfg0 provFailAll (offlineRefreshAfter + 1) stDiskOffline (str "cat")
      (by decide) (by decide)).1 entOffline (by decide) (by decide) (by decide),
   (offline_staleness cfg0 provFailAll 5 stDiskOnline (str "cat")
      (by decide) (by decide)).2 entOnline (by decide) (by decide) (by decide)⟩

theorem resolve_state_second_hit (cfg2 : config) (prov2 : Providers) (t2 : Nat)
    (mem2 : lruCache) (dm : DiskMap) (db : Bool) (lf : Option GoStr) (word : GoStr)
    (it : cacheItem) (hhead : mem2.ll.head? = some it) (hkey : it.key = goToLower word)
    (hfresh : t2 - it.ts ≤ mem2.ttl) :
    (resolveDefinition cfg2 prov2 t2 ⟨mem2, dm, db, lf⟩ word).2.2 = [] := by
  rw [resolve_second_hit cfg2 prov2 t2 ⟨mem2, dm, db, lf⟩ word it hhead hkey hfresh]

/-- Claim C6 counterexample: with every provider failing for "zzqx",
the result's `body` is not the bare "No definition found." text — the
body is the markup header (bold-italic display word and newline)
followed by that text; it is the `full` field that equals the fixed
text. -/
theorem no_result_body_cx :
    (resolveDefinition cfg0 provFailAll 0 st0 (str "zzqx")).1.body ≠
      str "No definition found." ∧
    (resolveDefinition cfg0 provFailAll 0 st0 (str "zzqx")).1.full =
      str "No definition found." := by decide

/-- Claim C6 (amended): when every provider fails for every lemma
candidate of a word, `resolveDefinition` returns a valid terminal
result with source kind `none` whose **full** text equals the fixed
"No definition found." placeholder (the `body` ends with that text
after the display header), the result is written to both cache tiers
with the dirty flag set, and a second call for the same word within
the TTL window makes zero provider invocations. -/
theorem no_result_amended (cfg : config) (prov : Providers) (t1 t2 : Nat)
    (st : ResolveState) (word : GoStr)
    (hmax : 0 < st.mem.max)
    (hmem : memFind st.mem (goToLower word) = none)
    (hdisk : diskLookupFresh st.disk (goToLower word) t1 = none)
    (hfail : ∀ c ∈ lemmaCandidates word,
      noSucc prov.primary c ∧ noSucc prov.wiktionary c ∧ noSucc prov.offline c)
    (hwin : t2 - t1 ≤ st.mem.ttl) :
    noResultProp cfg prov t1 t2 st word := by
  have hget := lruCache.get_of_find_none st.mem t1 (goToLower word) hmem
  have h1 : firstSucc prov.primary (lemmaCandidates word) = none :=
    (firstSucc_eq_none_iff _ _).mpr (fun c hc => (hfail c hc).1)
  have h2 : firstSucc prov.wiktionary (lemmaCandidates word) = none :=
    (firstSucc_eq_none_iff _ _).mpr (fun c hc => (hfail c hc).2.1)
  have h3 : firstSucc prov.offline (lemmaCandidates word) = none :=
    (firstSucc_eq_none_iff _ _).mpr (fun c hc => (hfail c hc).2.2)
  rcases hca : chainAll cfg prov word (lemmaCandidates word) with ⟨⟨out, used, source⟩, calls⟩
  have hout : out = str "No definition found." ∧ used = word ∧ source = str "none" := by
    rw [chainAll_eq, h1, h2] at hca
    dsimp only at hca
    cases hno : cfg.noOffline with
    | true =>
      rw [hno] at hca
      rw [if_pos rfl] at hca
      simp only [Prod.mk.injEq] at hca
      exact ⟨hca.1.1.symm, hca.1.2.1.symm, hca.1.2.2.symm⟩
    | false =>
      rw [hno] at hca
      rw [if_neg (by simp), h3] at hca
      dsimp only at hca
      simp only [Prod.mk.injEq] at hca
      exact ⟨hca.1.1.symm, hca.1.2.1.symm, hca.1.2.2.symm⟩
  obtain ⟨hout1, hout2, hout3⟩ := hout
  have hres := resolve_chain cfg prov t1 st word st.mem out used source calls hget hdisk hca
  rw [hout1, hout2, hout3] at hres
  have htrim : trimSpace (str "No definition found.") = str "No definition found." := by decide
  have hclamp : clampBody (str "No definition found.") = str "No definition found." := by decide
  unfold noResultProp
  rw [hres]
  dsimp only
  rw [htrim]
  refine ⟨rfl, rfl, ?_, ?_, rfl, ?_, ?_⟩
  · exact ⟨_, by rw [hclamp]⟩
  · rw [lookupD_insertD]
  · exact memFind_of_head _ _ _ (lruCache.set_head st.mem t1 _ _ _ _ _ hmax) rfl
  · intro cfg2 prov2
    refine resolve_state_second_hit cfg2 prov2 t2 _ _ _ _ word
      ⟨goToLower word, _, _, _, t1, _⟩ (lruCache.set_head st.mem t1 _ _ _ _ _ hmax) rfl ?_
    rw [lruCache.set_ttl]
    exact hwin

/-- Claim C6 amended witness: all providers fail for "zzqx" at time 3;
the second call happens at time 4. -/
theorem no_result_amended_witness :
    noResultProp cfg0 provFailAll 3 4 st0 (str "zzqx") :=
  no_result_amended cfg0 provFailAll 3 4 st0 (str "zzqx") (by decide) (by decide) (by decide)
    (by
      intro c _
      refine ⟨?_, ?_, ?_⟩ <;> intro o h <;> simp [provFailAll] at h)
    (by decide)

/-- Claim C2: on a full cache miss the resolver tries the providers in
the fixed order primary, wiktionary, offline, exhausting all lemma
candidates against one provider before moving to the next (never
interleaving), and the first provider/candidate pair yielding
non-empty text ends the search and determines the result's text, used
lemma and source kind. -/
theorem resolve_provider_order (cfg : config) (prov : Providers) (now : Nat)
    (st : ResolveState) (word : GoStr)
    (hmem : memFind st.mem (goToLower word) = none)
    (hdisk : diskLookupFresh st.disk (goToLower word) now = none) :
    providerOrderSpec cfg prov now st word := by
  have hget := lruCache.get_of_find_none st.mem now (goToLower word) hmem
  rcases hca : chainAll cfg prov word (lemmaCandidates word) with ⟨⟨out, used, source⟩, calls⟩
  have hres := resolve_chain cfg prov now st word st.mem out used source calls hget hdisk hca
  rw [chainAll_eq] at hca
  unfold providerOrderSpec
  rw [hres]
  dsimp only
  cases h1 : firstSucc prov.primary (lemmaCandidates word) with
  | some oc1 =>
    obtain ⟨o1, c1⟩ := oc1
    rw [h1] at hca
    dsimp only at hca
    simp only [Prod.mk.injEq] at hca
    obtain ⟨⟨ho, hu, hs⟩, hc⟩ := hca
    subst ho; subst hu; subst hs; subst hc
    refine ⟨⟨takeUntilSucc prov.primary (lemmaCandidates word), [], [], by simp,
      takeUntilSucc_isP _ _, List.nil_prefix, List.nil_prefix,
      by rintro (h | h) <;> exact absurd rfl h, fun h => absurd rfl h⟩, ?_, ?_, ?_⟩
    · intro o c h
      injection h with h
      injection h with hoo hcc
      subst hoo; subst hcc
      exact ⟨rfl, rfl, rfl, rfl⟩
    · intro hh
      simp at hh
    · intro _ hh
      simp at hh
  | none =>
    rw [h1] at hca
    dsimp only at hca
    cases h2 : firstSucc prov.wiktionary (lemmaCandidates word) with
    | some oc2 =>
      obtain ⟨o2, c2⟩ := oc2
      rw [h2] at hca
      dsimp only at hca
      simp only [Prod.mk.injEq] at hca
      obtain ⟨⟨ho, hu, hs⟩, hc⟩ := hca
      subst ho; subst hu; subst hs; subst hc
      refine ⟨⟨lemmaCandidates word, takeUntilSucc prov.wiktionary (lemmaCandidates word), [],
        by simp, List.prefix_refl _, takeUntilSucc_isP _ _, List.nil_prefix,
        fun _ => rfl, fun h => absurd rfl h⟩, ?_, ?_, ?_⟩
      · intro o c h
        simp at h
      · intro _ o c h
        injection h with h
        injection h with hoo hcc
        subst hoo; subst hcc
        exact ⟨rfl, rfl, rfl, rfl⟩
      · intro _ _ hh
        simp at hh
    | none =>
      rw [h2] at hca
      dsimp only at hca
      cases hno : cfg.noOffline with
      | true =>
        rw [hno] at hca
        rw [if_pos rfl] at hca
        simp only [Prod.mk.injEq] at hca
        obtain ⟨⟨ho, hu, hs⟩, hc⟩ := hca
        subst ho; subst hu; subst hs; subst hc
        refine ⟨⟨lemmaCandidates word, lemmaCandidates word, [], by simp,
          List.prefix_refl _, List.prefix_refl _, List.nil_prefix,
          fun _ => rfl, fun h => absurd rfl h⟩, ?_, ?_, ?_⟩
        · intro o c h
          simp at h
        · intro _ o c h
          simp at h
        · intro hno2
          simp at hno2
      | false =>
        rw [hno] at hca
        rw [if_neg (by simp)] at hca
        cases h3 : firstSucc prov.offline (lemmaCandidates word) with
        | some oc3 =>
          obtain ⟨o3, c3⟩ := oc3
          rw [h3] at hca
          dsimp only at hca
          simp only [Prod.mk.injEq] at hca
          obtain ⟨⟨ho, hu, hs⟩, hc⟩ := hca
          subst ho; subst hu; subst hs; subst hc
          refine ⟨⟨lemmaCandidates word, lemmaCandidates word,
            takeUntilSucc prov.offline (lemmaCandidates word), rfl,
            List.prefix_refl _, List.prefix_refl _, takeUntilSucc_isP _ _,
            fun _ => rfl, fun _ => rfl⟩, ?_, ?_, ?_⟩
          · intro o c h
            simp at h
          · intro _ o c h
            simp at h
          · intro _ _ _ o c h
            injection h with h
            injection h with hoo hcc
            subst hoo; subst hcc
            exact ⟨rfl, rfl, rfl, rfl⟩
        | none =>
          rw [h3] at hca
          dsimp only at hca
          simp only [Prod.mk.injEq] at hca
          obtain ⟨⟨ho, hu, hs⟩, hc⟩ := hca
          subst ho; subst hu; subst hs; subst hc
          refine ⟨⟨lemmaCandidates word, lemmaCandidates word, lemmaCandidates word, rfl,
            List.prefix_refl _, List.prefix_refl _, List.prefix_refl _,
            fun _ => rfl, fun _ => rfl⟩, ?_, ?_, ?_⟩
          · intro o c h
            simp at h
          · intro _ o c h
            simp at h
          · intro _ _ _ o c h
            simp at h

/-- Claim C2 witness: a concrete miss for "legends" in which the
primary provider succeeds on the second candidate. -/
theorem resolve_provider_order_witness :
    providerOrderSpec cfg0 provLegend 0 st0 (str "legends") :=
  resolve_provider_order cfg0 provLegend 0 st0 (str "legends") (by decide) (by decide)
